import Mathlib

/-!
Verification of the matching/scoring core of `anexonibo.py` (repository
benediti/NotasImpakto).

The embedding models text as `List Char`.  Python's `re` patterns used by the
source are simple enough (literal prefixes, an optional colon, whitespace runs
and bounded digit runs) to be embedded as deterministic scanners; the only
place where regex backtracking is observable is the `0*(\d{5,9})` pattern of
`find_nf_number_in_filename`, which is embedded with its exact backtracking
order (greedy `0*` first, then fewer zeros).  `re.findall(...)[0]` is the
capture of the leftmost match, embedded as `firstMatch` (scan each suffix,
left to right, first success wins).

Python `dict` records are modelled as a structure with one `Option` field per
key the source reads; `None`/absent keys are `none`, and Python truthiness of
strings (`"" or x`, `if s:`) is modelled by `pyOr`/`truthy`.
-/

/-- ASCII lowercasing, as Python's `re.IGNORECASE` behaves on the ASCII
patterns used by the source. -/
def lowerChar (c : Char) : Char :=
  if 'A' ≤ c ∧ c ≤ 'Z' then Char.ofNat (c.toNat + 32) else c

/-- ASCII uppercasing, as Python's `str.upper` behaves on ASCII text. -/
def upperChar (c : Char) : Char :=
  if 'a' ≤ c ∧ c ≤ 'z' then Char.ofNat (c.toNat - 32) else c

/-- `\d` of the source's patterns (ASCII digits). -/
def isDigitC (c : Char) : Bool := '0' ≤ c && c ≤ '9'

/-- `\s` of the source's patterns and Python's `str.strip`, on ASCII. -/
def isPySpace (c : Char) : Bool :=
  c == ' ' || c == '\t' || c == '\n' || c == '\r' || c == '\x0b' || c == '\x0c'

def toUpperL (cs : List Char) : List Char := cs.map upperChar

/-- Python `str.strip()`: drop leading and trailing whitespace. -/
def pyStrip (cs : List Char) : List Char :=
  ((cs.dropWhile isPySpace).reverse.dropWhile isPySpace).reverse

/-- Boolean prefix test used to embed Python's substring operator `in`. -/
def isPrefixB : List Char → List Char → Bool
  | [], _ => true
  | _ :: _, [] => false
  | p :: ps, c :: cs => p == c && isPrefixB ps cs

/-- Python's substring operator `needle in hay`. -/
def containsSub (needle : List Char) : List Char → Bool
  | [] => isPrefixB needle []
  | c :: cs => isPrefixB needle (c :: cs) || containsSub needle cs

/-- First-some choice on options (the `if matches: return matches[0]` cascade
of the source, and Python's left-to-right scan). -/
def oalt {α : Type} (a b : Option α) : Option α :=
  match a with
  | some r => some r
  | none => b

/-- Case-insensitive literal: match `p` (a lowercase pattern literal) against
the front of the text, returning the rest on success. -/
def litCI : List Char → List Char → Option (List Char)
  | [], cs => some cs
  | _ :: _, [] => none
  | p :: ps, c :: cs => if lowerChar c == lowerChar p then litCI ps cs else none

/-- One token of the label patterns of `find_nf_number_in_string`:
a case-insensitive literal, an optional colon `:?`, or a space run `\s*`.
`:?` and `\s*` are committed-greedy here; this is faithful because in every
pattern of the source each of them is followed by a token that can match
neither `:` nor a space (a digit, or a letter literal), so regex backtracking
can never produce a different match. -/
inductive Tok where
  | lit : List Char → Tok
  | optColon : Tok
  | spaces : Tok

def matchToks : List Tok → List Char → Option (List Char)
  | [], cs => some cs
  | Tok.lit p :: ts, cs =>
      match litCI p cs with
      | some rest => matchToks ts rest
      | none => none
  | Tok.optColon :: ts, cs =>
      match cs with
      | c :: rest => if c == ':' then matchToks ts rest else matchToks ts (c :: rest)
      | [] => matchToks ts []
  | Tok.spaces :: ts, cs => matchToks ts (cs.dropWhile isPySpace)

/-- Greedy bounded digit capture `(\d{lo,hi})` at the front of the text:
take up to `hi` digits, succeed only with at least `lo` of them. -/
def capDigits (lo hi : Nat) (cs : List Char) : Option (List Char) :=
  let d := (cs.takeWhile isDigitC).take hi
  if lo ≤ d.length then some d else none

/-- A label pattern of `find_nf_number_in_string`: tokens, then `(\d{5,9})`. -/
def matchLabel (toks : List Tok) (cs : List Char) : Option (List Char) :=
  match matchToks toks cs with
  | some rest => capDigits 5 9 rest
  | none => none

/-- `re.findall(...)[0]`: try the matcher at every position, left to right,
and return the first capture. -/
def firstMatch (m : List Char → Option (List Char)) : List Char → Option (List Char)
  | [] => m []
  | c :: cs =>
      match m (c :: cs) with
      | some r => some r
      | none => firstMatch m cs

def nfToks : List Tok := [Tok.lit "nf".toList, Tok.optColon, Tok.spaces]
def nfeToks : List Tok := [Tok.lit "nfe".toList, Tok.optColon, Tok.spaces]
def danfeToks : List Tok := [Tok.lit "danfe".toList, Tok.spaces]
def notaFiscalToks : List Tok :=
  [Tok.lit "nota".toList, Tok.spaces, Tok.lit "fiscal".toList, Tok.spaces,
   Tok.optColon, Tok.spaces]

/-- `find_nf_number_in_string` of the source: the six patterns
`NF:?\s*(\d{5,9})`, `NFe:?\s*(\d{5,9})`, `DANFE\s*(\d{5,9})`,
`Nota\s*Fiscal\s*:?\s*(\d{5,9})`, `(\d{9})`, `(\d{6,8})`, tried in order,
first capture of the first pattern that matches anywhere. -/
def find_nf_number_in_string (text : List Char) : Option (List Char) :=
  oalt (firstMatch (matchLabel nfToks) text)
  (oalt (firstMatch (matchLabel nfeToks) text)
  (oalt (firstMatch (matchLabel danfeToks) text)
  (oalt (firstMatch (matchLabel notaFiscalToks) text)
  (oalt (firstMatch (capDigits 9 9) text)
        (firstMatch (capDigits 6 8) text)))))

/-- The first four (labelled) patterns of `find_nf_number_in_string` alone. -/
def labelOnlyMatches (text : List Char) : Option (List Char) :=
  oalt (firstMatch (matchLabel nfToks) text)
  (oalt (firstMatch (matchLabel nfeToks) text)
  (oalt (firstMatch (matchLabel danfeToks) text)
        (firstMatch (matchLabel notaFiscalToks) text)))

/-- Backtracking of `0*` in `0*(\d{5,9})`: try consuming `k` zeros first
(greedy), then fewer, as Python's regex engine does. -/
def tryZeros (cs : List Char) : Nat → Option (List Char)
  | 0 => capDigits 5 9 cs
  | Nat.succ k => oalt (capDigits 5 9 (cs.drop (Nat.succ k))) (tryZeros cs k)

def zeroRun (cs : List Char) : Nat := (cs.takeWhile (fun c => c == '0')).length

/-- The pattern `0*(\d{5,9})` at the front of the text. -/
def matchZeroPad (cs : List Char) : Option (List Char) := tryZeros cs (zeroRun cs)

/-- The patterns `NF0*(\d{5,9})` / `NFe0*(\d{5,9})` at the front of the text. -/
def matchLitZeroPad (p : List Char) (cs : List Char) : Option (List Char) :=
  match litCI p cs with
  | some rest => matchZeroPad rest
  | none => none

/-- `find_nf_number_in_filename` of the source: patterns `0*(\d{5,9})`,
`NF0*(\d{5,9})`, `NFe0*(\d{5,9})`, tried in order, first capture of the
first pattern that matches anywhere. -/
def find_nf_number_in_filename (filename : List Char) : Option (List Char) :=
  oalt (firstMatch matchZeroPad filename)
  (oalt (firstMatch (matchLitZeroPad "nf".toList) filename)
        (firstMatch (matchLitZeroPad "nfe".toList) filename))


/-! ## Data model: schedule records, uploaded files, proposals -/

/-- A nested party dict (`stakeholder`, `client`, `supplier` values). -/
structure Party where
  id : Option (List Char)
  name : Option (List Char)
deriving DecidableEq, Repr

/-- A schedule record, one `Option` field per key the source reads.  `none`
models an absent key (or a `None` value); numeric `dueDate`/`value` payloads
are modelled by their rendered strings. -/
structure Schedule where
  id : Option (List Char)
  scheduleId : Option (List Char)
  Id : Option (List Char)
  ScheduleId : Option (List Char)
  description : Option (List Char)
  title : Option (List Char)
  dueDate : Option (List Char)
  due : Option (List Char)
  due_date : Option (List Char)
  value : Option (List Char)
  amount : Option (List Char)
  stakeholder : Option Party
  client : Option Party
  supplier : Option Party
deriving DecidableEq, Repr

def emptySchedule : Schedule :=
  ⟨none, none, none, none, none, none, none, none, none, none, none, none, none, none⟩

/-- An uploaded file; the matcher reads `file["id"]` and `file["name"]`. -/
structure UFile where
  id : List Char
  name : List Char
deriving DecidableEq, Repr

/-- One proposal dict appended by `auto_match_files_to_schedules`. -/
structure MatchResult where
  file_id : List Char
  file_name : List Char
  schedule_id : List Char
  schedule_label : List Char
  score : Int
  reason : List Char
deriving DecidableEq, Repr

/-- Python `a or b` on string-or-None values: `a` if truthy (a nonempty
string), else `b`. -/
def pyOr (a b : Option (List Char)) : Option (List Char) :=
  match a with
  | some s => if s.isEmpty then b else some s
  | none => b

/-- Python truthiness of a string-or-None value. -/
def truthy : Option (List Char) → Bool
  | none => false
  | some s => !s.isEmpty

/-- Python `(x or {})` for a party dict. -/
def getParty : Option Party → Party
  | some p => p
  | none => ⟨none, none⟩

/-- `(schedule_item.get("stakeholder") or {}).get("id") or
(schedule_item.get("supplier") or {}).get("id")` — note: the `client` key is
not consulted here. -/
def scheduleSupplierId (it : Schedule) : Option (List Char) :=
  pyOr (getParty it.stakeholder).id (getParty it.supplier).id

def joinSep (sep : List Char) : List (List Char) → List Char
  | [] => []
  | [x] => x
  | x :: y :: xs => x ++ sep ++ joinSep sep (y :: xs)

/-- `schedule_label` of the source. -/
def schedule_label (it : Schedule) : List Char :=
  let sid := (pyOr (pyOr (pyOr it.id it.scheduleId) it.Id) it.ScheduleId).getD []
  let desc := (pyOr it.description it.title).getD []
  let due := (pyOr (pyOr it.dueDate it.due) it.due_date).getD []
  let val := (pyOr it.value it.amount).getD []
  let sname := (pyOr (pyOr (getParty it.stakeholder).name (getParty it.client).name)
                 (getParty it.supplier).name).getD []
  let parts : List (List Char) :=
    (if due.isEmpty then [] else [due]) ++
    (if desc.isEmpty then [] else [desc]) ++
    (if sname.isEmpty then [] else [['('] ++ sname ++ [')']]) ++
    (if val.isEmpty then [] else ["R$ ".toList ++ val]) ++
    (if sid.isEmpty then [] else [['['] ++ sid ++ [']']])
  joinSep " • ".toList (parts.filter (fun p => !p.isEmpty))

def keywords : List (List Char) :=
  ["NF".toList, "DANFE".toList, "FATURA".toList, "BOLETO".toList,
   "RECIBO".toList, "NOTA".toList]

/-- One iteration of the keyword loop of `calculate_match_score`. -/
def kwStep (filename_up description_up : List Char) (sr : Int × List Char)
    (kw : List Char) : Int × List Char :=
  if containsSub kw filename_up ∧ containsSub kw description_up then
    (sr.1 + 10, sr.2 ++ ("Palavra-chave '".toList ++ kw ++ "' encontrada em ambos (+10). ".toList))
  else sr

/-- `calculate_match_score` of the source. -/
def calculate_match_score (schedule_item : Schedule) (filename : List Char)
    (supplier_id : Option (List Char)) : Int × List Char :=
  let score : Int := 0
  let reason : List Char := []
  let sr :=
    if truthy supplier_id ∧ scheduleSupplierId schedule_item = supplier_id then
      (score + 30, reason ++ "Fornecedor corresponde (+30). ".toList)
    else (score, reason)
  let description := schedule_item.description.getD []
  let nf_in_description := find_nf_number_in_string description
  let nf_in_filename := find_nf_number_in_filename filename
  let sr :=
    if truthy nf_in_description ∧ truthy nf_in_filename ∧ nf_in_description = nf_in_filename then
      (sr.1 + 70, sr.2 ++ ("Número de NF (".toList ++ nf_in_description.getD []
        ++ ") encontrado em ambos (+70). ".toList))
    else sr
  let sr := keywords.foldl (kwStep (toUpperL filename) (toUpperL description)) sr
  (sr.1, pyStrip sr.2)

def scoreOf (filename : List Char) (esid : Option (List Char)) (s : Schedule) : Int :=
  (calculate_match_score s filename esid).1

def reasonOf (filename : List Char) (esid : Option (List Char)) (s : Schedule) : List Char :=
  (calculate_match_score s filename esid).2

/-- `schedule.get("id") or schedule.get("scheduleId") or schedule.get("Id")`. -/
def sidOf (schedule : Schedule) : Option (List Char) :=
  pyOr (pyOr schedule.id schedule.scheduleId) schedule.Id

/-- The running best of the inner loop of `auto_match_files_to_schedules`. -/
structure BestState where
  best_match : Option (List Char)
  best_score : Int
  best_reason : List Char
  best_schedule : Option Schedule
deriving DecidableEq, Repr

/-- One iteration of the inner (`for schedule in schedules`) loop. -/
def matchStep (filename : List Char) (supplier_id : Option (List Char))
    (st : BestState) (schedule : Schedule) : BestState :=
  let score := scoreOf filename supplier_id schedule
  let reason := reasonOf filename supplier_id schedule
  if st.best_score < score then
    { best_match := sidOf schedule, best_score := score,
      best_reason := reason, best_schedule := some schedule }
  else st

/-- The inner loop of `auto_match_files_to_schedules` over one file. -/
def fileBest (schedules : List Schedule) (filename : List Char)
    (supplier_id : Option (List Char)) (threshold : Int) : BestState :=
  schedules.foldl (matchStep filename supplier_id)
    ⟨none, threshold, [], none⟩

/-- The `if best_match: matches.append({...})` step for one file. -/
def proposalFor (schedules : List Schedule) (supplier_id : Option (List Char))
    (threshold : Int) (file : UFile) : Option MatchResult :=
  let st := fileBest schedules file.name supplier_id threshold
  if truthy st.best_match then
    some { file_id := file.id, file_name := file.name,
           schedule_id := st.best_match.getD [],
           schedule_label := schedule_label (st.best_schedule.getD emptySchedule),
           score := st.best_score, reason := st.best_reason }
  else none

/-- `auto_match_files_to_schedules` of the source. -/
def auto_match_files_to_schedules (uploaded_files : List UFile)
    (schedules : List Schedule) (supplier_id : Option (List Char))
    (threshold : Int) : List MatchResult :=
  uploaded_files.foldl (fun acc file =>
    match proposalFor schedules supplier_id threshold file with
    | some m => acc ++ [m]
    | none => acc) []

/-- Stable descending insertion by score: `m` goes after every element whose
score is `≥ m.score`. -/
def insertByScoreDesc (m : MatchResult) : List MatchResult → List MatchResult
  | [] => [m]
  | x :: xs => if x.score < m.score then m :: x :: xs else x :: insertByScoreDesc m xs

/-- `sorted(matches, key=lambda x: x["score"], reverse=True)` (line 715 of the
source): Python's sort is stable, and a stable descending sort is exactly
left-to-right stable insertion. -/
def sorted_matches (ms : List MatchResult) : List MatchResult :=
  ms.foldl (fun acc m => insertByScoreDesc m acc) []


/-! ## Character-level lemmas -/

theorem lowerChar_of_digit {c : Char} (h : isDigitC c = true) : lowerChar c = c := by
  simp only [isDigitC, Bool.and_eq_true, decide_eq_true_eq] at h
  unfold lowerChar
  rw [if_neg]
  intro hc
  exact absurd (le_trans hc.1 h.2) (by decide)

theorem space_cases {c : Char} (h : isPySpace c = true) :
    c = ' ' ∨ c = '\t' ∨ c = '\n' ∨ c = '\r' ∨ c = '\x0b' ∨ c = '\x0c' := by
  simp only [isPySpace, Bool.or_eq_true, beq_iff_eq] at h
  tauto

theorem lowerChar_of_space {c : Char} (h : isPySpace c = true) : lowerChar c = c := by
  rcases space_cases h with h | h | h | h | h | h <;> subst h <;> decide

theorem isDigitC_of_space {c : Char} (h : isPySpace c = true) : isDigitC c = false := by
  rcases space_cases h with h | h | h | h | h | h <;> subst h <;> decide

theorem not_space_of_digit {c : Char} (h : isDigitC c = true) : isPySpace c = false := by
  cases hp : isPySpace c
  · rfl
  · rw [isDigitC_of_space hp] at h; exact absurd h (by simp)

theorem ne_colon_of_digit {c : Char} (h : isDigitC c = true) : c ≠ ':' := by
  intro he; subst he; exact absurd h (by decide)

theorem ne_colon_of_space {c : Char} (h : isPySpace c = true) : c ≠ ':' := by
  intro he; subst he; exact absurd h (by decide)

theorem not_digit_of_lower_eq {c p : Char} (hp : isDigitC p = false) (h : lowerChar c = p) :
    isDigitC c = false := by
  cases hd : isDigitC c
  · rfl
  · rw [lowerChar_of_digit hd] at h; subst h; rw [hd] at hp; exact hp

theorem not_space_of_lower_eq {c p : Char} (hp : isPySpace p = false) (h : lowerChar c = p) :
    isPySpace c = false := by
  cases hs : isPySpace c
  · rfl
  · rw [lowerChar_of_space hs] at h; subst h; rw [hs] at hp; exact hp

/-! ## List helper lemmas -/

theorem takeWhile_append_all {p : Char → Bool} {A B : List Char}
    (h : ∀ c ∈ A, p c = true) :
    List.takeWhile p (A ++ B) = A ++ List.takeWhile p B := by
  induction A with
  | nil => simp
  | cons x xs ih =>
      rw [List.cons_append, List.takeWhile_cons_of_pos (h x (List.mem_cons_self x xs)),
        ih (fun c hc => h c (List.mem_cons_of_mem x hc)), List.cons_append]

theorem dropWhile_append_all {p : Char → Bool} {A B : List Char}
    (h : ∀ c ∈ A, p c = true) :
    List.dropWhile p (A ++ B) = List.dropWhile p B := by
  induction A with
  | nil => simp
  | cons x xs ih =>
      rw [List.cons_append, List.dropWhile_cons_of_pos (h x (List.mem_cons_self x xs)),
        ih (fun c hc => h c (List.mem_cons_of_mem x hc))]

theorem dropWhile_append_not_nil {p : Char → Bool} {A B : List Char}
    (h : List.dropWhile p A ≠ []) :
    List.dropWhile p (A ++ B) = List.dropWhile p A ++ B := by
  induction A with
  | nil => simp at h
  | cons x xs ih =>
      cases hx : p x
      · rw [List.cons_append, List.dropWhile_cons_of_neg (by simp [hx]),
          List.dropWhile_cons_of_neg (by simp [hx]), List.cons_append]
      · rw [List.dropWhile_cons_of_pos hx] at h
        rw [List.cons_append, List.dropWhile_cons_of_pos hx,
          List.dropWhile_cons_of_pos hx, ih h]

theorem oalt_some {α : Type} (r : α) (b : Option α) : oalt (some r) b = some r := rfl

theorem oalt_none {α : Type} (b : Option α) : oalt none b = b := rfl

theorem oalt_assoc {α : Type} (a b c : Option α) :
    oalt (oalt a b) c = oalt a (oalt b c) := by cases a <;> rfl

theorem oalt_eq_none_iff {α : Type} (a b : Option α) :
    oalt a b = none ↔ a = none ∧ b = none := by cases a <;> simp [oalt]

theorem oalt_isSome_left {α : Type} {a : Option α} (b : Option α)
    (h : a.isSome = true) : (oalt a b).isSome = true := by
  cases a <;> simp_all [oalt]

theorem oalt_isSome_right {α : Type} (a : Option α) {b : Option α}
    (h : b.isSome = true) : (oalt a b).isSome = true := by
  cases a <;> simp_all [oalt]

/-! ## `firstMatch` (leftmost-match) lemmas -/

theorem firstMatch_eq_none_iff {m : List Char → Option (List Char)} :
    ∀ t, firstMatch m t = none ↔ ∀ u, u <:+ t → m u = none
  | [] => by
      simp only [firstMatch]
      constructor
      · intro h u hu; rw [List.suffix_nil.mp hu]; exact h
      · intro h; exact h [] (List.suffix_refl _)
  | c :: cs => by
      simp only [firstMatch]
      cases hm : m (c :: cs) with
      | some r =>
          simp only [reduceCtorEq, false_iff, not_forall]
          exact ⟨c :: cs, List.suffix_refl _, by simp [hm]⟩
      | none =>
          rw [firstMatch_eq_none_iff cs]
          constructor
          · intro h u hu
            rcases List.suffix_cons_iff.mp hu with rfl | hu'
            · exact hm
            · exact h u hu'
          · intro h u hu; exact h u (List.suffix_cons_iff.mpr (Or.inr hu))

theorem firstMatch_isSome_self {m : List Char → Option (List Char)} {t : List Char}
    (h : (m t).isSome = true) : (firstMatch m t).isSome = true := by
  cases t with
  | nil => simpa [firstMatch]
  | cons c cs => simp only [firstMatch]; cases hm : m (c :: cs) <;> simp_all

theorem firstMatch_isSome_append {m : List Char → Option (List Char)}
    (a : List Char) {t : List Char} (h : (m t).isSome = true) :
    (firstMatch m (a ++ t)).isSome = true := by
  induction a with
  | nil => simpa using firstMatch_isSome_self h
  | cons x xs ih =>
      simp only [List.cons_append, firstMatch]
      cases hm : m (x :: (xs ++ t)) <;> simp [hm, ih]

theorem firstMatch_found {m : List Char → Option (List Char)} {v : List Char} :
    ∀ (a t : List Char), m t = some v →
    (∀ u, u <:+ a → u ≠ [] → (m (u ++ t) = none ∨ m (u ++ t) = some v)) →
    firstMatch m (a ++ t) = some v
  | [], t, hm, _ => by
      cases t with
      | nil => simpa [firstMatch] using hm
      | cons c cs => simp [firstMatch, hm]
  | x :: xs, t, hm, h => by
      have htail := firstMatch_found xs t hm
        (fun u hu hne => h u (List.suffix_cons_iff.mpr (Or.inr hu)) hne)
      have hstep : firstMatch m ((x :: xs) ++ t) =
          match m ((x :: xs) ++ t) with
          | some r => some r
          | none => firstMatch m (xs ++ t) := rfl
      rw [hstep]
      cases hmx : m ((x :: xs) ++ t) with
      | none => exact htail
      | some r =>
          rcases h (x :: xs) (List.suffix_refl _) (by simp) with hc | hc
          · rw [hmx] at hc; exact absurd hc (by simp)
          · rw [hmx] at hc; exact hc

/-! ## Label-pattern behaviour at an occurrence -/

theorem litCI_append : ∀ (p l rest : List Char), l.map lowerChar = p.map lowerChar →
    litCI p (l ++ rest) = some rest
  | [], l, rest, h => by
      have h2 : List.map lowerChar l = [] := by simpa using h
      have hl : l = [] := List.map_eq_nil_iff.mp h2
      subst hl
      rfl
  | q :: qs, l, rest, h => by
      cases l with
      | nil => simp at h
      | cons c cs =>
          simp only [List.map_cons, List.cons.injEq] at h
          have hstep : litCI (q :: qs) ((c :: cs) ++ rest) =
              if lowerChar c == lowerChar q then litCI qs (cs ++ rest) else none := rfl
          rw [hstep, if_pos (by simp [h.1])]
          exact litCI_append qs cs rest h.2

theorem head_of_append {s r : List Char} {x : Char} (h : (s ++ r).head? = some x) :
    x ∈ s ∨ r.head? = some x := by
  cases s with
  | nil => exact Or.inr h
  | cons y ys =>
      simp only [List.cons_append, List.head?_cons, Option.some.injEq] at h
      subst h
      exact Or.inl (List.mem_cons_self _ _)

theorem matchToks_optColon_skip (ts : List Tok) (cs : List Char)
    (h : ∀ x, cs.head? = some x → x ≠ ':') :
    matchToks (Tok.optColon :: ts) cs = matchToks ts cs := by
  cases cs with
  | nil => rfl
  | cons x rest =>
      have hstep : matchToks (Tok.optColon :: ts) (x :: rest) =
          if x == ':' then matchToks ts rest else matchToks ts (x :: rest) := rfl
      rw [hstep, if_neg (by simp [h x rfl])]

theorem matchToks_spaces (ts : List Tok) {s r : List Char}
    (hs : ∀ x ∈ s, isPySpace x = true)
    (hr : ∀ x, r.head? = some x → isPySpace x = false) :
    matchToks (Tok.spaces :: ts) (s ++ r) = matchToks ts r := by
  have hstep : matchToks (Tok.spaces :: ts) (s ++ r) =
      matchToks ts ((s ++ r).dropWhile isPySpace) := rfl
  rw [hstep, dropWhile_append_all hs]
  cases r with
  | nil => rfl
  | cons y ys => rw [List.dropWhile_cons_of_neg (by simp [hr y rfl])]

theorem capDigits_exact {d post : List Char} (hd : ∀ c ∈ d, isDigitC c = true)
    (h5 : 5 ≤ d.length) (h9 : d.length ≤ 9)
    (hp : ∀ x, post.head? = some x → isDigitC x = false) :
    capDigits 5 9 (d ++ post) = some d := by
  have ht : List.takeWhile isDigitC (d ++ post) = d := by
    rw [takeWhile_append_all hd]
    cases post with
    | nil => simp
    | cons y ys =>
        rw [List.takeWhile_cons_of_neg (by simp [hp y rfl])]
        simp
  simp only [capDigits, ht, List.take_of_length_le h9, if_pos h5]

theorem matchToks_lit {p : List Char} (ts : List Tok) {l rest : List Char}
    (h : l.map lowerChar = p.map lowerChar) :
    matchToks (Tok.lit p :: ts) (l ++ rest) = matchToks ts rest := by
  have hu : matchToks (Tok.lit p :: ts) (l ++ rest) =
      match litCI p (l ++ rest) with
      | some r => matchToks ts r
      | none => none := rfl
  rw [hu, litCI_append p l rest h]

theorem matchToks_optColon_colon (ts : List Tok) (cs : List Char) :
    matchToks (Tok.optColon :: ts) (':' :: cs) = matchToks ts cs := by
  have hstep : matchToks (Tok.optColon :: ts) (':' :: cs) =
      if ':' == ':' then matchToks ts cs else matchToks ts (':' :: cs) := rfl
  rw [hstep]
  simp

/-- `NF:?\s*(\d{5,9})` (and, with `p := "nfe"`, `NFe:?\s*(\d{5,9})`) matched
exactly at a label occurrence. -/
theorem matchLabel_lit_at (p : List Char) (hp : p.map lowerChar = p)
    {l cpart s d post : List Char}
    (hl : l.map lowerChar = p)
    (hcp : cpart = [] ∨ cpart = [':'])
    (hs : ∀ x ∈ s, isPySpace x = true)
    (hd : ∀ c ∈ d, isDigitC c = true)
    (h5 : 5 ≤ d.length) (h9 : d.length ≤ 9)
    (hpost : ∀ x, post.head? = some x → isDigitC x = false) :
    matchLabel [Tok.lit p, Tok.optColon, Tok.spaces]
      (l ++ (cpart ++ (s ++ (d ++ post)))) = some d := by
  have hdne : d ≠ [] := by intro he; rw [he] at h5; simp at h5
  obtain ⟨dh, dt, hdd⟩ := List.exists_cons_of_ne_nil hdne
  have hdposth : ∀ x, (d ++ post).head? = some x → isDigitC x = true := by
    intro x hx
    rw [hdd] at hx
    simp only [List.cons_append, List.head?_cons, Option.some.injEq] at hx
    subst hx
    exact hd _ (by rw [hdd]; exact List.mem_cons_self _ _)
  have h1 : matchToks [Tok.lit p, Tok.optColon, Tok.spaces]
      (l ++ (cpart ++ (s ++ (d ++ post)))) =
      matchToks [Tok.optColon, Tok.spaces] (cpart ++ (s ++ (d ++ post))) :=
    matchToks_lit _ (by rw [hl, hp])
  have h2 : matchToks [Tok.optColon, Tok.spaces] (cpart ++ (s ++ (d ++ post))) =
      matchToks [Tok.spaces] (s ++ (d ++ post)) := by
    rcases hcp with rfl | rfl
    · rw [List.nil_append]
      apply matchToks_optColon_skip
      intro x hx
      rcases head_of_append hx with hxs | hxd
      · exact ne_colon_of_space (hs x hxs)
      · exact ne_colon_of_digit (hdposth x hxd)
    · rw [List.cons_append, List.nil_append, matchToks_optColon_colon]
  have h3 : matchToks [Tok.spaces] (s ++ (d ++ post)) =
      matchToks [] (d ++ post) :=
    matchToks_spaces [] hs (fun x hx => not_space_of_digit (hdposth x hx))
  have hfin : matchLabel [Tok.lit p, Tok.optColon, Tok.spaces]
      (l ++ (cpart ++ (s ++ (d ++ post)))) = capDigits 5 9 (d ++ post) := by
    unfold matchLabel
    rw [h1, h2, h3]
    rfl
  rw [hfin]
  exact capDigits_exact hd h5 h9 hpost

/-- `Nota\s*Fiscal\s*:?\s*(\d{5,9})` matched exactly at a label occurrence. -/
theorem matchLabel_nota_at {l1 s1 l2 s2 cpart s3 d post : List Char}
    (h1 : l1.map lowerChar = "nota".toList)
    (hs1 : ∀ x ∈ s1, isPySpace x = true)
    (h2 : l2.map lowerChar = "fiscal".toList)
    (hs2 : ∀ x ∈ s2, isPySpace x = true)
    (hcp : cpart = [] ∨ cpart = [':'])
    (hs3 : ∀ x ∈ s3, isPySpace x = true)
    (hd : ∀ c ∈ d, isDigitC c = true)
    (h5 : 5 ≤ d.length) (h9 : d.length ≤ 9)
    (hpost : ∀ x, post.head? = some x → isDigitC x = false) :
    matchLabel notaFiscalToks
      (l1 ++ (s1 ++ (l2 ++ (s2 ++ (cpart ++ (s3 ++ (d ++ post))))))) = some d := by
  have hdne : d ≠ [] := by intro he; rw [he] at h5; simp at h5
  obtain ⟨dh, dt, hdd⟩ := List.exists_cons_of_ne_nil hdne
  have hdposth : ∀ x, (d ++ post).head? = some x → isDigitC x = true := by
    intro x hx
    rw [hdd] at hx
    simp only [List.cons_append, List.head?_cons, Option.some.injEq] at hx
    subst hx
    exact hd _ (by rw [hdd]; exact List.mem_cons_self _ _)
  have hl2ne : l2 ≠ [] := by
    intro he; rw [he] at h2; exact absurd h2.symm (by simp)
  obtain ⟨c2, l2t, hl2⟩ := List.exists_cons_of_ne_nil hl2ne
  have hc2 : lowerChar c2 = 'f' := by
    rw [hl2] at h2
    simpa using congrArg List.head? h2
  have hstep1 : matchToks notaFiscalToks
      (l1 ++ (s1 ++ (l2 ++ (s2 ++ (cpart ++ (s3 ++ (d ++ post))))))) =
      matchToks [Tok.spaces, Tok.lit "fiscal".toList, Tok.spaces, Tok.optColon, Tok.spaces]
        (s1 ++ (l2 ++ (s2 ++ (cpart ++ (s3 ++ (d ++ post)))))) :=
    matchToks_lit _ (by rw [h1]; decide)
  have hstep2 : matchToks [Tok.spaces, Tok.lit "fiscal".toList, Tok.spaces, Tok.optColon, Tok.spaces]
        (s1 ++ (l2 ++ (s2 ++ (cpart ++ (s3 ++ (d ++ post)))))) =
      matchToks [Tok.lit "fiscal".toList, Tok.spaces, Tok.optColon, Tok.spaces]
        (l2 ++ (s2 ++ (cpart ++ (s3 ++ (d ++ post))))) := by
    apply matchToks_spaces _ hs1
    intro x hx
    rw [hl2] at hx
    simp only [List.cons_append, List.head?_cons, Option.some.injEq] at hx
    subst hx
    exact not_space_of_lower_eq (by decide) hc2
  have hstep3 : matchToks [Tok.lit "fiscal".toList, Tok.spaces, Tok.optColon, Tok.spaces]
        (l2 ++ (s2 ++ (cpart ++ (s3 ++ (d ++ post))))) =
      matchToks [Tok.spaces, Tok.optColon, Tok.spaces]
        (s2 ++ (cpart ++ (s3 ++ (d ++ post)))) :=
    matchToks_lit _ (by rw [h2]; decide)
  have hrest : matchToks [Tok.spaces, Tok.optColon, Tok.spaces]
      (s2 ++ (cpart ++ (s3 ++ (d ++ post)))) = some (d ++ post) := by
    rcases hcp with rfl | rfl
    · have hregroup : s2 ++ ([] ++ (s3 ++ (d ++ post))) = (s2 ++ s3) ++ (d ++ post) := by
        simp [List.append_assoc]
      rw [hregroup]
      have hsp : matchToks [Tok.spaces, Tok.optColon, Tok.spaces] ((s2 ++ s3) ++ (d ++ post)) =
          matchToks [Tok.optColon, Tok.spaces] (d ++ post) := by
        apply matchToks_spaces
        · intro x hx
          rcases List.mem_append.mp hx with hx2 | hx3
          · exact hs2 x hx2
          · exact hs3 x hx3
        · exact fun x hx => not_space_of_digit (hdposth x hx)
      rw [hsp, matchToks_optColon_skip _ _ (fun x hx => ne_colon_of_digit (hdposth x hx))]
      have : matchToks [Tok.spaces] (d ++ post) = matchToks [] (d ++ post) := by
        have hnil : d ++ post = [] ++ (d ++ post) := rfl
        rw [hnil]
        exact matchToks_spaces [] (by simp) (fun x hx => not_space_of_digit (hdposth x (by simpa using hx)))
      rw [this]
      rfl
    · have hsp : matchToks [Tok.spaces, Tok.optColon, Tok.spaces]
          (s2 ++ ([':'] ++ (s3 ++ (d ++ post)))) =
          matchToks [Tok.optColon, Tok.spaces] ([':'] ++ (s3 ++ (d ++ post))) := by
        apply matchToks_spaces _ hs2
        intro x hx
        simp only [List.cons_append, List.head?_cons, Option.some.injEq] at hx
        subst hx
        decide
      rw [hsp, List.cons_append, List.nil_append, matchToks_optColon_colon]
      have hsp3 : matchToks [Tok.spaces] (s3 ++ (d ++ post)) = matchToks [] (d ++ post) :=
        matchToks_spaces [] hs3 (fun x hx => not_space_of_digit (hdposth x hx))
      rw [hsp3]
      rfl
  have hfin : matchLabel notaFiscalToks
      (l1 ++ (s1 ++ (l2 ++ (s2 ++ (cpart ++ (s3 ++ (d ++ post))))))) =
      capDigits 5 9 (d ++ post) := by
    unfold matchLabel
    rw [hstep1, hstep2, hstep3, hrest]
  rw [hfin]
  exact capDigits_exact hd h5 h9 hpost

/-! ## What the label patterns can consume before the digits -/

/-- A token list whose literals are all lowercase non-digit characters:
anything such a token list consumes is digit-free. -/
def GoodToks (toks : List Tok) : Prop :=
  ∀ t ∈ toks, (t = Tok.optColon ∨ t = Tok.spaces) ∨
    ∃ p, t = Tok.lit p ∧ ∀ q ∈ p, isDigitC q = false ∧ lowerChar q = q

theorem litCI_consumed {p : List Char}
    (hp : ∀ q ∈ p, isDigitC q = false ∧ lowerChar q = q) :
    ∀ {s rem : List Char}, litCI p s = some rem →
      ∃ pfx, s = pfx ++ rem ∧ ∀ c ∈ pfx, isDigitC c = false := by
  induction p with
  | nil =>
      intro s rem h
      exact ⟨[], by simpa [litCI] using h, by simp⟩
  | cons q qs ih =>
      intro s rem h
      cases s with
      | nil => simp [litCI] at h
      | cons c cs =>
          have hstep : litCI (q :: qs) (c :: cs) =
              if lowerChar c == lowerChar q then litCI qs cs else none := rfl
          rw [hstep] at h
          by_cases hcq : lowerChar c == lowerChar q
          · rw [if_pos hcq] at h
            obtain ⟨pfx, hpe, hpd⟩ :=
              ih (fun x hx => hp x (List.mem_cons_of_mem q hx)) h
            refine ⟨c :: pfx, by rw [List.cons_append, hpe], ?_⟩
            intro x hx
            rcases List.mem_cons.mp hx with rfl | hx2
            · have hq := hp q (List.mem_cons_self q qs)
              have : lowerChar x = q := by rw [(by simpa using hcq : lowerChar x = lowerChar q), hq.2]
              exact not_digit_of_lower_eq hq.1 this
            · exact hpd x hx2
          · rw [if_neg hcq] at h
            cases h

theorem matchToks_consumed : ∀ (toks : List Tok), GoodToks toks →
    ∀ {s rem : List Char}, matchToks toks s = some rem →
      ∃ pfx, s = pfx ++ rem ∧ ∀ c ∈ pfx, isDigitC c = false
  | [], _, s, rem, h => ⟨[], by simpa [matchToks] using h, by simp⟩
  | t :: ts, hg, s, rem, h => by
      have hgt := hg t (List.mem_cons_self t ts)
      have hgts : GoodToks ts := fun u hu => hg u (List.mem_cons_of_mem t hu)
      rcases hgt with (rfl | rfl) | ⟨p, rfl, hp⟩
      · -- optColon
        cases s with
        | nil =>
            have hstep : matchToks (Tok.optColon :: ts) ([] : List Char) = matchToks ts [] := rfl
            rw [hstep] at h
            exact matchToks_consumed ts hgts h
        | cons c cs =>
            have hstep : matchToks (Tok.optColon :: ts) (c :: cs) =
                if c == ':' then matchToks ts cs else matchToks ts (c :: cs) := rfl
            rw [hstep] at h
            by_cases hc : c == ':'
            · rw [if_pos hc] at h
              obtain ⟨pfx, hpe, hpd⟩ := matchToks_consumed ts hgts h
              refine ⟨c :: pfx, by rw [List.cons_append, hpe], ?_⟩
              intro x hx
              rcases List.mem_cons.mp hx with rfl | hx2
              · rw [(by simpa using hc : x = ':')]; decide
              · exact hpd x hx2
            · rw [if_neg hc] at h
              exact matchToks_consumed ts hgts h
      · -- spaces
        have hstep : matchToks (Tok.spaces :: ts) s = matchToks ts (s.dropWhile isPySpace) := rfl
        rw [hstep] at h
        obtain ⟨pfx, hpe, hpd⟩ := matchToks_consumed ts hgts h
        refine ⟨s.takeWhile isPySpace ++ pfx, ?_, ?_⟩
        · rw [List.append_assoc, ← hpe, List.takeWhile_append_dropWhile]
        · intro x hx
          rcases List.mem_append.mp hx with hx1 | hx2
          · exact isDigitC_of_space (List.mem_takeWhile_imp hx1)
          · exact hpd x hx2
      · -- lit p
        cases hlit : litCI p s with
        | none =>
            have hstep : matchToks (Tok.lit p :: ts) s =
                match litCI p s with
                | some rest => matchToks ts rest
                | none => none := rfl
            rw [hstep, hlit] at h
            cases h
        | some rest =>
            have hstep : matchToks (Tok.lit p :: ts) s = matchToks ts rest := by
              have : matchToks (Tok.lit p :: ts) s =
                  match litCI p s with
                  | some r => matchToks ts r
                  | none => none := rfl
              rw [this, hlit]
            rw [hstep] at h
            obtain ⟨pfx1, hpe1, hpd1⟩ := litCI_consumed hp hlit
            obtain ⟨pfx2, hpe2, hpd2⟩ := matchToks_consumed ts hgts h
            refine ⟨pfx1 ++ pfx2, ?_, ?_⟩
            · rw [List.append_assoc, ← hpe2, ← hpe1]
            · intro x hx
              rcases List.mem_append.mp hx with hx1 | hx2
              · exact hpd1 x hx1
              · exact hpd2 x hx2

theorem goodToks_nf : GoodToks nfToks := by
  intro t ht
  simp only [nfToks, List.mem_cons, List.not_mem_nil, or_false] at ht
  rcases ht with rfl | rfl | rfl
  · exact Or.inr ⟨"nf".toList, rfl, by decide⟩
  · exact Or.inl (Or.inl rfl)
  · exact Or.inl (Or.inr rfl)

/-- At a position whose digit-free prefix `u` is followed by the digit run `d`
(itself followed by a non-digit), a label pattern either fails or captures
exactly `d`. -/
theorem matchLabel_nodigit {toks : List Tok} (htoks : GoodToks toks)
    {u d post : List Char}
    (hu : ∀ c ∈ u, isDigitC c = false)
    (hd : ∀ c ∈ d, isDigitC c = true)
    (h5 : 5 ≤ d.length) (h9 : d.length ≤ 9)
    (hpost : ∀ x, post.head? = some x → isDigitC x = false) :
    matchLabel toks (u ++ (d ++ post)) = none ∨
      matchLabel toks (u ++ (d ++ post)) = some d := by
  have hdne : d ≠ [] := by intro he; rw [he] at h5; simp at h5
  obtain ⟨dh, dt, hdd⟩ := List.exists_cons_of_ne_nil hdne
  cases hmt : matchToks toks (u ++ (d ++ post)) with
  | none => exact Or.inl (by unfold matchLabel; rw [hmt])
  | some rem =>
      obtain ⟨pfx, heq, hpfx⟩ := matchToks_consumed toks htoks hmt
      have hk : pfx.length ≤ u.length := by
        by_contra hgt
        push_neg at hgt
        have hpfx_take : pfx = List.take pfx.length (u ++ (d ++ post)) := by
          rw [heq, List.take_left]
        have hsum : pfx.length = u.length + (pfx.length - u.length) := by omega
        have hpos : 1 ≤ pfx.length - u.length := by omega
        have htake : List.take pfx.length (u ++ (d ++ post)) =
            u ++ List.take (pfx.length - u.length) (d ++ post) := by
          conv_lhs => rw [hsum]
          exact List.take_append _
        have hdh : dh ∈ pfx := by
          rw [hpfx_take, htake, hdd]
          apply List.mem_append_right
          obtain ⟨j, hj⟩ : ∃ j, pfx.length - u.length = j + 1 :=
            ⟨pfx.length - u.length - 1, by omega⟩
          rw [hj]
          simp
        have := hpfx dh hdh
        rw [hd dh (by rw [hdd]; exact List.mem_cons_self _ _)] at this
        cases this
      have hrem : rem = List.drop pfx.length u ++ (d ++ post) := by
        have hu2 : u = List.take pfx.length u ++ List.drop pfx.length u :=
          (List.take_append_drop _ _).symm
        have hall : pfx ++ rem =
            List.take pfx.length u ++ (List.drop pfx.length u ++ (d ++ post)) := by
          rw [← heq]
          conv_lhs => rw [hu2]
          rw [List.append_assoc]
        have hlen : pfx.length = (List.take pfx.length u).length := by
          rw [List.length_take]
          omega
        exact (List.append_inj hall hlen).2
      cases hud : List.drop pfx.length u with
      | nil =>
          refine Or.inr ?_
          have : rem = d ++ post := by rw [hrem, hud, List.nil_append]
          unfold matchLabel
          rw [hmt, this]
          exact capDigits_exact hd h5 h9 hpost
      | cons y ys =>
          refine Or.inl ?_
          have hy : isDigitC y = false :=
            hu y (List.drop_subset _ _ (by rw [hud]; exact List.mem_cons_self _ _))
          have htw : List.takeWhile isDigitC (y :: (ys ++ (d ++ post))) = [] :=
            List.takeWhile_cons_of_neg (by simp [hy])
          have hnone : capDigits 5 9 ((y :: ys) ++ (d ++ post)) = none := by
            unfold capDigits
            rw [List.cons_append, htw]
            rfl
          unfold matchLabel
          rw [hmt, hrem, hud]
          exact hnone

/-! ## Filename pattern behaviour -/

theorem matchZeroPad_at {z r post : List Char}
    (hz : ∀ c ∈ z, c = '0')
    (hr : ∀ c ∈ r, isDigitC c = true)
    (hrh : ∀ x, r.head? = some x → x ≠ '0')
    (h5 : 5 ≤ r.length) (h9 : r.length ≤ 9)
    (hpost : ∀ x, post.head? = some x → isDigitC x = false) :
    matchZeroPad (z ++ (r ++ post)) = some r := by
  have hrne : r ≠ [] := by intro he; rw [he] at h5; simp at h5
  obtain ⟨rh, rt, hrr⟩ := List.exists_cons_of_ne_nil hrne
  have hzr : zeroRun (z ++ (r ++ post)) = z.length := by
    unfold zeroRun
    rw [takeWhile_append_all (fun c hc => by simp [hz c hc])]
    have htwr : List.takeWhile (fun c => c == '0') (rh :: (rt ++ post)) = [] :=
      List.takeWhile_cons_of_neg (by simp; exact hrh rh (by rw [hrr]; rfl))
    rw [hrr, List.cons_append, htwr]
    simp
  unfold matchZeroPad
  rw [hzr]
  have hcap : capDigits 5 9 (r ++ post) = some r := capDigits_exact hr h5 h9 hpost
  cases hzl : z.length with
  | zero =>
      have hznil : z = [] := List.length_eq_zero.mp hzl
      subst hznil
      simpa [tryZeros] using hcap
  | succ k =>
      have hdrop : List.drop (Nat.succ k) (z ++ (r ++ post)) = r ++ post := by
        have hk1 : Nat.succ k = z.length := by omega
        rw [hk1, List.drop_left]
      unfold tryZeros
      rw [hdrop, hcap]
      rfl

theorem matchZeroPad_nodigit_head {c : Char} {cs : List Char}
    (h : isDigitC c = false) : matchZeroPad (c :: cs) = none := by
  have hc0 : (c == '0') = false := by
    cases hcc : c == '0'
    · rfl
    · rw [(by simpa using hcc : c = '0')] at h; cases h
  have hz : zeroRun (c :: cs) = 0 := by
    unfold zeroRun
    rw [List.takeWhile_cons_of_neg (by simp [hc0])]
    rfl
  unfold matchZeroPad
  rw [hz]
  unfold tryZeros
  have htw : List.takeWhile isDigitC (c :: cs) = [] :=
    List.takeWhile_cons_of_neg (by simp [h])
  unfold capDigits
  rw [htw]
  rfl

/-! ## Decomposition of `calculate_match_score` into its three rules -/

/-- The stakeholder/supplier rule of `calculate_match_score`, in isolation. -/
def supplierRule (it : Schedule) (supplier_id : Option (List Char)) : Int × List Char :=
  if truthy supplier_id ∧ scheduleSupplierId it = supplier_id then
    (30, "Fornecedor corresponde (+30). ".toList)
  else (0, [])

/-- The NF-number rule of `calculate_match_score`, in isolation. -/
def nfRule (description filename : List Char) : Int × List Char :=
  let nf_in_description := find_nf_number_in_string description
  let nf_in_filename := find_nf_number_in_filename filename
  if truthy nf_in_description ∧ truthy nf_in_filename ∧
      nf_in_description = nf_in_filename then
    (70, "Número de NF (".toList ++ nf_in_description.getD []
      ++ ") encontrado em ambos (+70). ".toList)
  else (0, [])

/-- The keyword rule of `calculate_match_score`, in isolation. -/
def kwRule (filename_up description_up : List Char) : Int × List Char :=
  keywords.foldl (kwStep filename_up description_up) (0, [])

theorem kwStep_foldl_shift (fu du : List Char) :
    ∀ (kws : List (List Char)) (a : Int) (b : List Char),
      List.foldl (kwStep fu du) (a, b) kws =
        (a + (List.foldl (kwStep fu du) (0, []) kws).1,
         b ++ (List.foldl (kwStep fu du) (0, []) kws).2)
  | [], a, b => by simp
  | kw :: kws, a, b => by
      simp only [List.foldl_cons, kwStep]
      by_cases hc : containsSub kw fu ∧ containsSub kw du
      · rw [if_pos hc, if_pos hc]
        rw [kwStep_foldl_shift fu du kws (a + 10) _,
          kwStep_foldl_shift fu du kws (0 + 10) _]
        simp [List.append_assoc]
        omega
      · rw [if_neg hc, if_neg hc]
        exact kwStep_foldl_shift fu du kws a b

theorem calc_decomp (it : Schedule) (filename : List Char) (sid : Option (List Char)) :
    calculate_match_score it filename sid =
      ((supplierRule it sid).1 + (nfRule (it.description.getD []) filename).1
          + (kwRule (toUpperL filename) (toUpperL (it.description.getD []))).1,
       pyStrip ((supplierRule it sid).2 ++ ((nfRule (it.description.getD []) filename).2
          ++ (kwRule (toUpperL filename) (toUpperL (it.description.getD []))).2))) := by
  unfold calculate_match_score supplierRule nfRule kwRule
  by_cases h1 : truthy sid ∧ scheduleSupplierId it = sid <;>
    by_cases h2 : truthy (find_nf_number_in_string (it.description.getD [])) ∧
        truthy (find_nf_number_in_filename filename) ∧
        find_nf_number_in_string (it.description.getD []) =
          find_nf_number_in_filename filename <;>
      simp only [h1, h2, if_pos, if_neg, if_true, if_false, not_false_iff, zero_add,
        List.nil_append, ite_true, ite_false, eq_self_iff_true, not_true, not_false_eq_true] <;>
      rw [kwStep_foldl_shift] <;>
      simp [List.append_assoc]

/-- After `reason.strip()`, the stakeholder fragment (without its trailing
space) is still a prefix of the rationale whenever it was appended first. -/
theorem supplier_frag_prefix (rest : List Char) :
    "Fornecedor corresponde (+30).".toList <+:
      pyStrip ("Fornecedor corresponde (+30). ".toList ++ rest) := by
  have hfrag : "Fornecedor corresponde (+30). ".toList =
      "Fornecedor corresponde (+30).".toList ++ [' '] := by decide
  unfold pyStrip
  have hdrop1 : List.dropWhile isPySpace ("Fornecedor corresponde (+30). ".toList ++ rest) =
      "Fornecedor corresponde (+30). ".toList ++ rest := by
    have : "Fornecedor corresponde (+30). ".toList ++ rest =
        'F' :: ("ornecedor corresponde (+30). ".toList ++ rest) := rfl
    rw [this, List.dropWhile_cons_of_neg (by decide)]
  rw [hdrop1, List.reverse_append]
  by_cases hall : ∀ x ∈ rest, isPySpace x = true
  · have hrevall : ∀ x ∈ rest.reverse, isPySpace x = true := by
      intro x hx; exact hall x (List.mem_reverse.mp hx)
    rw [dropWhile_append_all hrevall]
    have hconc : List.dropWhile isPySpace ("Fornecedor corresponde (+30). ".toList.reverse) =
        "Fornecedor corresponde (+30).".toList.reverse := by decide
    rw [hconc, List.reverse_reverse]
  · push_neg at hall
    obtain ⟨x, hx, hxs⟩ := hall
    have hne : List.dropWhile isPySpace rest.reverse ≠ [] := by
      intro he
      have := List.dropWhile_eq_nil_iff.mp he x (List.mem_reverse.mpr hx)
      rw [this] at hxs
      exact hxs rfl
    rw [dropWhile_append_not_nil hne, List.reverse_append, List.reverse_reverse]
    calc "Fornecedor corresponde (+30).".toList
        <+: "Fornecedor corresponde (+30). ".toList := ⟨[' '], by decide⟩
      _ <+: "Fornecedor corresponde (+30). ".toList ++
          (List.dropWhile isPySpace rest.reverse).reverse := List.prefix_append _ _

/-! ## The matcher inner loop: running best is the earliest argmax -/

theorem foldl_matchStep_le (fn : List Char) (esid : Option (List Char)) :
    ∀ (ss : List Schedule) (st : BestState),
      (∀ s ∈ ss, scoreOf fn esid s ≤ st.best_score) →
      List.foldl (matchStep fn esid) st ss = st
  | [], _, _ => rfl
  | s :: ss, st, h => by
      have hs : scoreOf fn esid s ≤ st.best_score := h s (List.mem_cons_self _ _)
      have hstep : matchStep fn esid st s = st := by
        unfold matchStep
        rw [if_neg (not_lt.mpr hs)]
      rw [List.foldl_cons, hstep]
      exact foldl_matchStep_le fn esid ss st (fun x hx => h x (List.mem_cons_of_mem _ hx))

theorem foldl_matchStep_argmax (fn : List Char) (esid : Option (List Char)) :
    ∀ (ss : List Schedule) (st : BestState),
      (∃ s ∈ ss, st.best_score < scoreOf fn esid s) →
      ∃ i, ∃ hi : i < ss.length,
        List.foldl (matchStep fn esid) st ss =
          { best_match := sidOf ss[i],
            best_score := scoreOf fn esid ss[i],
            best_reason := reasonOf fn esid ss[i],
            best_schedule := some ss[i] } ∧
        st.best_score < scoreOf fn esid ss[i] ∧
        (∀ j, ∀ hj : j < ss.length, j < i →
          scoreOf fn esid ss[j] < scoreOf fn esid ss[i]) ∧
        (∀ j, ∀ hj : j < ss.length,
          scoreOf fn esid ss[j] ≤ scoreOf fn esid ss[i])
  | [], st, hex => by simp at hex
  | s :: ss, st, hex => by
      rw [List.foldl_cons]
      by_cases hlt : st.best_score < scoreOf fn esid s
      · have hstep : matchStep fn esid st s =
            { best_match := sidOf s, best_score := scoreOf fn esid s,
              best_reason := reasonOf fn esid s, best_schedule := some s } := by
          unfold matchStep
          rw [if_pos hlt]
        rw [hstep]
        by_cases hex2 : ∃ x ∈ ss, scoreOf fn esid s < scoreOf fn esid x
        · obtain ⟨i, hi, heq, hgt, hlts, hmax⟩ :=
            foldl_matchStep_argmax fn esid ss
              { best_match := sidOf s, best_score := scoreOf fn esid s,
                best_reason := reasonOf fn esid s, best_schedule := some s }
              (by simpa using hex2)
          refine ⟨i + 1, Nat.succ_lt_succ hi, ?_, ?_, ?_, ?_⟩
          · simpa using heq
          · exact lt_trans hlt (by simpa using hgt)
          · intro j hj hji
            cases j with
            | zero => simpa using (by simpa using hgt : scoreOf fn esid s < scoreOf fn esid ss[i])
            | succ jp =>
                have := hlts jp (Nat.lt_of_succ_lt_succ hj) (Nat.lt_of_succ_lt_succ hji)
                simpa using this
          · intro j hj
            cases j with
            | zero => exact le_of_lt (by simpa using hgt)
            | succ jp =>
                have := hmax jp (Nat.lt_of_succ_lt_succ hj)
                simpa using this
        · push_neg at hex2
          have hfold := foldl_matchStep_le fn esid ss
            { best_match := sidOf s, best_score := scoreOf fn esid s,
              best_reason := reasonOf fn esid s, best_schedule := some s }
            (by simpa using hex2)
          refine ⟨0, Nat.succ_pos _, ?_, ?_, ?_, ?_⟩
          · rw [hfold]
            simp
          · simpa using hlt
          · intro j hj hj0
            omega
          · intro j hj
            cases j with
            | zero => simp
            | succ jp =>
                have hjp : jp < ss.length := Nat.lt_of_succ_lt_succ hj
                have hm : ss[jp] ∈ ss := List.getElem_mem _
                have := hex2 ss[jp] hm
                simpa using this
      · have hstep : matchStep fn esid st s = st := by
          unfold matchStep
          rw [if_neg hlt]
        rw [hstep]
        have hex3 : ∃ x ∈ ss, st.best_score < scoreOf fn esid x := by
          obtain ⟨x, hx, hxs⟩ := hex
          rcases List.mem_cons.mp hx with rfl | hx2
          · exact absurd hxs hlt
          · exact ⟨x, hx2, hxs⟩
        obtain ⟨i, hi, heq, hgt, hlts, hmax⟩ := foldl_matchStep_argmax fn esid ss st hex3
        refine ⟨i + 1, Nat.succ_lt_succ hi, ?_, ?_, ?_, ?_⟩
        · simpa using heq
        · simpa using hgt
        · intro j hj hji
          cases j with
          | zero =>
              have h1 : scoreOf fn esid s ≤ st.best_score := not_lt.mp hlt
              have := lt_of_le_of_lt h1 (by simpa using hgt)
              simpa using this
          | succ jp =>
              have := hlts jp (Nat.lt_of_succ_lt_succ hj) (Nat.lt_of_succ_lt_succ hji)
              simpa using this
        · intro j hj
          cases j with
          | zero =>
              have h1 : scoreOf fn esid s ≤ st.best_score := not_lt.mp hlt
              exact le_of_lt (lt_of_le_of_lt h1 (by simpa using hgt))
          | succ jp =>
              have := hmax jp (Nat.lt_of_succ_lt_succ hj)
              simpa using this

/-! ## The outer loop appends at most one proposal per file -/

theorem auto_match_eq_filterMap (files : List UFile) (ss : List Schedule)
    (esid : Option (List Char)) (thr : Int) :
    auto_match_files_to_schedules files ss esid thr =
      files.filterMap (proposalFor ss esid thr) := by
  have hgen : ∀ (fs : List UFile) (acc : List MatchResult),
      fs.foldl (fun acc file =>
        match proposalFor ss esid thr file with
        | some m => acc ++ [m]
        | none => acc) acc
      = acc ++ fs.filterMap (proposalFor ss esid thr) := by
    intro fs
    induction fs with
    | nil => intro acc; simp
    | cons f fs ih =>
        intro acc
        rw [List.foldl_cons, List.filterMap_cons]
        cases hf : proposalFor ss esid thr f with
        | none => exact ih acc
        | some m =>
            show List.foldl _ (acc ++ [m]) fs =
              acc ++ (m :: List.filterMap (proposalFor ss esid thr) fs)
            rw [ih (acc ++ [m]), List.append_assoc, List.singleton_append]
  unfold auto_match_files_to_schedules
  simpa using hgen files []

theorem fileBest_eq_foldl (ss : List Schedule) (fn : List Char)
    (esid : Option (List Char)) (thr : Int) :
    fileBest ss fn esid thr =
      ss.foldl (matchStep fn esid) ⟨none, thr, [], none⟩ := rfl

/-! ## Stable descending sort (the display-time `sorted(..., reverse=True)`) -/

theorem mem_insertByScoreDesc {m x : MatchResult} :
    ∀ {ms : List MatchResult}, x ∈ insertByScoreDesc m ms ↔ x = m ∨ x ∈ ms
  | [] => by simp [insertByScoreDesc]
  | y :: ms => by
      unfold insertByScoreDesc
      by_cases hy : y.score < m.score
      · rw [if_pos hy]
        simp only [List.mem_cons]
      · rw [if_neg hy]
        rw [List.mem_cons, List.mem_cons, mem_insertByScoreDesc]
        tauto

theorem pairwise_insertByScoreDesc {m : MatchResult} :
    ∀ {ms : List MatchResult},
      List.Pairwise (fun a b => b.score ≤ a.score) ms →
      List.Pairwise (fun a b => b.score ≤ a.score) (insertByScoreDesc m ms)
  | [], _ => by simp [insertByScoreDesc]
  | y :: ms, h => by
      unfold insertByScoreDesc
      rcases List.pairwise_cons.mp h with ⟨hy, hms⟩
      by_cases hsc : y.score < m.score
      · rw [if_pos hsc]
        refine List.pairwise_cons.mpr ⟨?_, h⟩
        intro b hb
        rcases List.mem_cons.mp hb with rfl | hb2
        · exact le_of_lt hsc
        · exact le_trans (hy b hb2) (le_of_lt hsc)
      · rw [if_neg hsc]
        refine List.pairwise_cons.mpr ⟨?_, pairwise_insertByScoreDesc hms⟩
        intro b hb
        rcases mem_insertByScoreDesc.mp hb with rfl | hb2
        · exact not_lt.mp hsc
        · exact hy b hb2

theorem filter_insertByScoreDesc {m : MatchResult} (v : Int) :
    ∀ {ms : List MatchResult},
      List.Pairwise (fun a b => b.score ≤ a.score) ms →
      (insertByScoreDesc m ms).filter (fun x => x.score == v) =
        (if m.score == v then ms.filter (fun x => x.score == v) ++ [m]
         else ms.filter (fun x => x.score == v))
  | [], _ => by
      cases hv : (m.score == v) <;> simp [insertByScoreDesc, List.filter_cons, hv]
  | y :: ms, h => by
      rcases List.pairwise_cons.mp h with ⟨hy, hms⟩
      unfold insertByScoreDesc
      by_cases hsc : y.score < m.score
      · rw [if_pos hsc]
        by_cases hv : m.score = v
        · subst hv
          have hfilt : (y :: ms).filter (fun x => x.score == m.score) = [] := by
            rw [List.filter_eq_nil_iff]
            intro a ha
            rcases List.mem_cons.mp ha with rfl | ha2
            · simp
              omega
            · have := lt_of_le_of_lt (hy a ha2) hsc
              simp
              omega
          rw [List.filter_cons, hfilt]
          simp
        · have hmv : (m.score == v) = false := by simpa using hv
          rw [List.filter_cons]
          simp [hmv]
      · rw [if_neg hsc]
        rw [List.filter_cons, filter_insertByScoreDesc v hms, List.filter_cons]
        by_cases hyv : (y.score == v) <;> by_cases hmv : (m.score == v) <;>
          simp [hyv, hmv]

theorem perm_insertByScoreDesc (m : MatchResult) :
    ∀ (ms : List MatchResult), (insertByScoreDesc m ms).Perm (m :: ms)
  | [] => by simp [insertByScoreDesc]
  | y :: ms => by
      unfold insertByScoreDesc
      by_cases hsc : y.score < m.score
      · rw [if_pos hsc]
      · rw [if_neg hsc]
        exact ((perm_insertByScoreDesc m ms).cons y).trans (List.Perm.swap m y ms)

theorem sorted_matches_pairwise (ms : List MatchResult) :
    List.Pairwise (fun a b => b.score ≤ a.score) (sorted_matches ms) := by
  have hgen : ∀ (xs acc : List MatchResult),
      List.Pairwise (fun a b => b.score ≤ a.score) acc →
      List.Pairwise (fun a b => b.score ≤ a.score)
        (xs.foldl (fun acc m => insertByScoreDesc m acc) acc) := by
    intro xs
    induction xs with
    | nil => intro acc h; exact h
    | cons x xs ih => intro acc h; exact ih _ (pairwise_insertByScoreDesc h)
  exact hgen ms [] (by simp)

theorem sorted_matches_stable (ms : List MatchResult) (v : Int) :
    (sorted_matches ms).filter (fun x => x.score == v) =
      ms.filter (fun x => x.score == v) := by
  have hgen : ∀ (xs acc : List MatchResult),
      List.Pairwise (fun a b => b.score ≤ a.score) acc →
      ((xs.foldl (fun acc m => insertByScoreDesc m acc) acc).filter
          (fun x => x.score == v)) =
        acc.filter (fun x => x.score == v) ++ xs.filter (fun x => x.score == v) := by
    intro xs
    induction xs with
    | nil => intro acc h; simp
    | cons x xs ih =>
        intro acc h
        rw [List.foldl_cons, ih _ (pairwise_insertByScoreDesc h),
          filter_insertByScoreDesc v h, List.filter_cons]
        by_cases hxv : (x.score == v) <;> simp [hxv, List.append_assoc]
  simpa using hgen ms [] (by simp)

theorem sorted_matches_perm (ms : List MatchResult) : (sorted_matches ms).Perm ms := by
  have hgen : ∀ (xs acc : List MatchResult),
      ((xs.foldl (fun acc m => insertByScoreDesc m acc) acc)).Perm (acc ++ xs) := by
    intro xs
    induction xs with
    | nil => intro acc; simp
    | cons x xs ih =>
        intro acc
        rw [List.foldl_cons]
        refine (ih _).trans ?_
        refine (List.Perm.append_right xs (perm_insertByScoreDesc x acc)).trans ?_
        simpa using List.perm_middle.symm
  simpa using hgen ms []

/-! ## Chain decomposition for `find_nf_number_in_string` -/

theorem oalt_four {α : Type} (a b c d X : Option α) :
    oalt a (oalt b (oalt c (oalt d X))) = oalt (oalt a (oalt b (oalt c d))) X := by
  cases a <;> cases b <;> cases c <;> cases d <;> rfl

theorem find_eq_oalt_labelOnly (t : List Char) :
    find_nf_number_in_string t =
      oalt (labelOnlyMatches t)
        (oalt (firstMatch (capDigits 9 9) t) (firstMatch (capDigits 6 8) t)) := by
  unfold find_nf_number_in_string labelOnlyMatches
  exact oalt_four _ _ _ _ _

/-! ## Full characterisation of a produced proposal -/

theorem proposalFor_spec (ss : List Schedule) (esid : Option (List Char)) (thr : Int)
    (f : UFile) (m : MatchResult) (hm : proposalFor ss esid thr f = some m) :
    ∃ i, ∃ hi : i < ss.length,
      m = { file_id := f.id, file_name := f.name,
            schedule_id := (sidOf ss[i]).getD [],
            schedule_label := schedule_label ss[i],
            score := scoreOf f.name esid ss[i],
            reason := reasonOf f.name esid ss[i] } ∧
      truthy (sidOf ss[i]) = true ∧
      thr < scoreOf f.name esid ss[i] ∧
      (∀ j, ∀ hj : j < ss.length, j < i →
        scoreOf f.name esid ss[j] < scoreOf f.name esid ss[i]) ∧
      (∀ j, ∀ hj : j < ss.length,
        scoreOf f.name esid ss[j] ≤ scoreOf f.name esid ss[i]) := by
  by_cases hex : ∃ s ∈ ss, thr < scoreOf f.name esid s
  · obtain ⟨i, hi, heq, hgt, hlts, hmax⟩ :=
      foldl_matchStep_argmax f.name esid ss ⟨none, thr, [], none⟩
        (by simpa using hex)
    have hprop : proposalFor ss esid thr f =
        (if truthy (sidOf ss[i]) then
          some { file_id := f.id, file_name := f.name,
                 schedule_id := (sidOf ss[i]).getD [],
                 schedule_label := schedule_label ss[i],
                 score := scoreOf f.name esid ss[i],
                 reason := reasonOf f.name esid ss[i] }
         else none) := by
      unfold proposalFor
      rw [fileBest_eq_foldl, heq]
      rfl
    rw [hprop] at hm
    by_cases htr : truthy (sidOf ss[i]) = true
    · rw [if_pos htr] at hm
      injection hm with hm2
      exact ⟨i, hi, hm2.symm, htr, by simpa using hgt, hlts, hmax⟩
    · rw [if_neg (by simpa using htr)] at hm
      cases hm
  · push_neg at hex
    have hfold := foldl_matchStep_le f.name esid ss ⟨none, thr, [], none⟩
      (by simpa using hex)
    have hprop : proposalFor ss esid thr f = none := by
      unfold proposalFor
      rw [fileBest_eq_foldl, hfold]
      rfl
    rw [hprop] at hm
    cases hm

/-! ## Concrete fixtures used by witnesses and counterexamples -/

def fileA : UFile := ⟨"f1".toList, "NF.pdf".toList⟩
def fileB : UFile := ⟨"f2".toList, "NFNOTA.pdf".toList⟩
def fileC : UFile := ⟨"f1".toList, "12345x".toList⟩
def sched1 : Schedule := { emptySchedule with id := some "s1".toList, description := some "NF".toList }
def sched2 : Schedule := { emptySchedule with id := some "s2".toList, description := some "NF NOTA".toList }
def schedNoId : Schedule := { emptySchedule with description := some "NF 12345".toList }
def clientOnlySched : Schedule := { emptySchedule with client := some ⟨some "X".toList, none⟩ }
def supplierSched : Schedule :=
  { emptySchedule with stakeholder := some ⟨some "S1".toList, none⟩, description := some "NF".toList }
def matchA : MatchResult :=
  { file_id := "f1".toList, file_name := "NF.pdf".toList, schedule_id := "s1".toList,
    schedule_label := "NF • [s1]".toList, score := 10,
    reason := "Palavra-chave 'NF' encontrada em ambos (+10).".toList }

/-! ## Claims -/

/-- C1: each file contributes at most one proposal (the matcher output is a
`filterMap` of one optional proposal per file); when a proposal is produced
for a file, its score is the maximum of `calculate_match_score` over all
records, and the proposal names (via the `id`/`scheduleId`/`Id` chain) the
earliest record attaining that maximum — every strictly earlier record scores
strictly less, since the loop updates only on a strict `>`. -/
theorem c1_best_only_max_earliest (files : List UFile) (ss : List Schedule)
    (esid : Option (List Char)) (thr : Int) :
    auto_match_files_to_schedules files ss esid thr =
      files.filterMap (proposalFor ss esid thr) ∧
    ∀ f m, proposalFor ss esid thr f = some m →
      (∀ s ∈ ss, scoreOf f.name esid s ≤ m.score) ∧
      ∃ i, ∃ hi : i < ss.length,
        scoreOf f.name esid ss[i] = m.score ∧
        (∀ j, ∀ hj : j < ss.length, j < i → scoreOf f.name esid ss[j] < m.score) ∧
        ∃ v, sidOf ss[i] = some v ∧ m.schedule_id = v := by
  refine ⟨auto_match_eq_filterMap files ss esid thr, ?_⟩
  intro f m hm
  obtain ⟨i, hi, hmeq, htr, hgt, hlts, hmax⟩ := proposalFor_spec ss esid thr f m hm
  have hscore : m.score = scoreOf f.name esid ss[i] := by rw [hmeq]
  constructor
  · intro s hs
    obtain ⟨j, hj, rfl⟩ := List.mem_iff_getElem.mp hs
    rw [hscore]
    exact hmax j hj
  · refine ⟨i, hi, hscore.symm, ?_, ?_⟩
    · intro j hj hji
      rw [hscore]
      exact hlts j hj hji
    · cases hsid : sidOf ss[i] with
      | none => rw [hsid] at htr; simp [truthy] at htr
      | some v =>
          refine ⟨v, rfl, ?_⟩
          rw [hmeq, hsid]
          rfl

theorem c1_witness :
    ∀ s ∈ [sched1, sched2], scoreOf fileA.name none s ≤ matchA.score :=
  ((c1_best_only_max_earliest [fileA] [sched1, sched2] none 0).2
    fileA matchA (by decide)).1

/-- C2: every proposal returned by the matcher has score strictly greater
than the threshold, and a file for which no record scores strictly above the
threshold yields no proposal. -/
theorem c2_threshold_strict (files : List UFile) (ss : List Schedule)
    (esid : Option (List Char)) (thr : Int) :
    (∀ m ∈ auto_match_files_to_schedules files ss esid thr, thr < m.score) ∧
    (∀ f : UFile, (∀ s ∈ ss, scoreOf f.name esid s ≤ thr) →
      proposalFor ss esid thr f = none) := by
  constructor
  · intro m hm
    rw [auto_match_eq_filterMap] at hm
    obtain ⟨f, _, hpf⟩ := List.mem_filterMap.mp hm
    obtain ⟨i, hi, hmeq, _, hgt, _, _⟩ := proposalFor_spec ss esid thr f m hpf
    rw [hmeq]
    exact hgt
  · intro f hall
    have hfold := foldl_matchStep_le f.name esid ss ⟨none, thr, [], none⟩
      (by simpa using hall)
    unfold proposalFor
    rw [fileBest_eq_foldl, hfold]
    rfl

theorem c2_witness : proposalFor [sched1] none 50 fileA = none :=
  (c2_threshold_strict [fileA] [sched1] none 50).2 fileA (by decide)

/-- C10: when the earliest record attaining a file's best above-threshold
score resolves no identifier through the `id`/`scheduleId`/`Id` chain
(`sidOf` is not truthy), the matcher emits no proposal at all for that file —
even though the id-less record raised the running best above other (possibly
id-carrying, above-threshold) records. -/
theorem c10_idless_best_suppresses (ss : List Schedule) (esid : Option (List Char))
    (thr : Int) (f : UFile) (i : Nat) (hi : i < ss.length)
    (hgt : thr < scoreOf f.name esid ss[i])
    (hmax : ∀ j, ∀ hj : j < ss.length,
      scoreOf f.name esid ss[j] ≤ scoreOf f.name esid ss[i])
    (hearliest : ∀ j, ∀ hj : j < ss.length, j < i →
      scoreOf f.name esid ss[j] < scoreOf f.name esid ss[i])
    (hnoid : truthy (sidOf ss[i]) = false) :
    proposalFor ss esid thr f = none ∧
    auto_match_files_to_schedules [f] ss esid thr = [] := by
  have hex : ∃ s ∈ ss, thr < scoreOf f.name esid s :=
    ⟨ss[i], List.getElem_mem _, hgt⟩
  obtain ⟨k, hk, heq, hgtk, hltk, hmaxk⟩ :=
    foldl_matchStep_argmax f.name esid ss ⟨none, thr, [], none⟩ hex
  have hik : k = i := by
    rcases Nat.lt_trichotomy k i with h | h | h
    · have h1 := hearliest k hk h
      have h2 := hmaxk i hi
      omega
    · exact h
    · have h1 := hltk i hi h
      have h2 := hmax k hk
      omega
  subst hik
  have h1 : proposalFor ss esid thr f = none := by
    unfold proposalFor
    rw [fileBest_eq_foldl, heq]
    simp [hnoid]
  refine ⟨h1, ?_⟩
  rw [auto_match_eq_filterMap]
  simp [h1]

theorem c10_witness :
    proposalFor [schedNoId] none 50 fileC = none ∧
    auto_match_files_to_schedules [fileC] [schedNoId] none 50 = [] :=
  c10_idless_best_suppresses [schedNoId] none 50 fileC 0 (by decide) (by decide)
    (by decide) (by decide) (by decide)

/-- C3 counterexample: the sequence returned by
`auto_match_files_to_schedules` itself is NOT sorted by descending score —
here it is `[10, 20]`, in file-processing order. -/
theorem c3_counterexample :
    ¬ List.Pairwise (fun a b => b.score ≤ a.score)
        (auto_match_files_to_schedules [fileA, fileB] [sched1, sched2] none 0) ∧
    (auto_match_files_to_schedules [fileA, fileB] [sched1, sched2] none 0).map
        (fun m => m.score) = [10, 20] := by decide

/-- C3 (amended): the matcher returns proposals in file-processing order; it
is the display step `sorted_matches` (Python `sorted(..., reverse=True)`,
line 715) that returns them sorted by descending score, stably: it is a
permutation, pairwise sorted by `≥` on score, and for every score value the
equal-score proposals keep the order in which their files were processed. -/
theorem c3_sorted_matches_desc_stable (files : List UFile) (ss : List Schedule)
    (esid : Option (List Char)) (thr : Int) :
    List.Pairwise (fun a b => b.score ≤ a.score)
      (sorted_matches (auto_match_files_to_schedules files ss esid thr)) ∧
    (∀ v : Int, (sorted_matches (auto_match_files_to_schedules files ss esid thr)).filter
        (fun m => m.score == v) =
      (auto_match_files_to_schedules files ss esid thr).filter (fun m => m.score == v)) ∧
    (sorted_matches (auto_match_files_to_schedules files ss esid thr)).Perm
      (auto_match_files_to_schedules files ss esid thr) :=
  ⟨sorted_matches_pairwise _, fun v => sorted_matches_stable _ v, sorted_matches_perm _⟩

/-- C4 counterexample: an expected stakeholder id equal to the identifier in
the record's `client` field does NOT earn the 30 points — the scorer resolves
only `stakeholder.id or supplier.id`, never `client.id`. -/
theorem c4_counterexample :
    clientOnlySched.client = some ⟨some "X".toList, none⟩ ∧
    truthy (some "X".toList) = true ∧
    (calculate_match_score clientOnlySched [] (some "X".toList)).1 = 0 ∧
    (calculate_match_score clientOnlySched [] (some "X".toList)).2 = [] := by decide

/-- C4 (amended): if the supplied expected stakeholder id is truthy and equals
the record's resolved stakeholder-or-supplier identifier (the `client` field
is not consulted), the scorer adds exactly 30 points relative to scoring with
no expected id, and the stakeholder rationale fragment heads the rationale. -/
theorem c4_stakeholder_30 (it : Schedule) (filename : List Char) (s : List Char)
    (hs : s ≠ []) (hid : scheduleSupplierId it = some s) :
    (calculate_match_score it filename (some s)).1 =
      30 + (calculate_match_score it filename none).1 ∧
    "Fornecedor corresponde (+30).".toList <+:
      (calculate_match_score it filename (some s)).2 := by
  have htr : truthy (some s) = true := by simp [truthy, hs]
  have hsup1 : supplierRule it (some s) =
      (30, "Fornecedor corresponde (+30). ".toList) := by
    unfold supplierRule
    rw [if_pos ⟨htr, hid⟩]
  have hsup0 : supplierRule it none = (0, []) := by
    unfold supplierRule
    rw [if_neg]
    intro hcon
    have := hcon.1
    simp [truthy] at this
  rw [calc_decomp it filename (some s), calc_decomp it filename none, hsup1, hsup0]
  constructor
  · simp only []
    omega
  · simp only [List.nil_append]
    exact supplier_frag_prefix _

theorem c4_witness :
    (calculate_match_score supplierSched "NF.pdf".toList (some "S1".toList)).1 =
      30 + (calculate_match_score supplierSched "NF.pdf".toList none).1 ∧
    "Fornecedor corresponde (+30).".toList <+:
      (calculate_match_score supplierSched "NF.pdf".toList (some "S1".toList)).2 :=
  c4_stakeholder_30 supplierSched "NF.pdf".toList "S1".toList (by decide) (by decide)

/-- C9: a record whose description key is absent, scored against a file with
an empty name, contributes nothing from the identifier and keyword rules —
the whole score and rationale are exactly those of the stakeholder rule (30
or 0) — and the matcher is a total function returning at most one proposal
per file, never a failure. -/
theorem c9_missing_fields_degrade (it : Schedule) (esid : Option (List Char))
    (files : List UFile) (ss : List Schedule) (thr : Int)
    (hdesc : it.description = none) :
    (calculate_match_score it [] esid).1 = (supplierRule it esid).1 ∧
    (calculate_match_score it [] esid).2 = pyStrip (supplierRule it esid).2 ∧
    (auto_match_files_to_schedules files ss esid thr).length ≤ files.length := by
  have hnf : nfRule ([] : List Char) [] = (0, []) := by decide
  have hkw : kwRule (toUpperL []) (toUpperL []) = (0, []) := by decide
  rw [calc_decomp, hdesc]
  simp only [Option.getD_none]
  rw [hnf, hkw]
  refine ⟨by simp, by simp, ?_⟩
  rw [auto_match_eq_filterMap]
  exact List.length_filterMap_le _ _

theorem c9_witness :
    (calculate_match_score emptySchedule [] none).1 = (supplierRule emptySchedule none).1 ∧
    (calculate_match_score emptySchedule [] none).2 =
      pyStrip (supplierRule emptySchedule none).2 ∧
    (auto_match_files_to_schedules [fileA] [emptySchedule] none 0).length ≤
      [fileA].length :=
  c9_missing_fields_degrade emptySchedule none [fileA] [emptySchedule] 0 rfl

/-- C6 counterexample: a text containing "NF 1234567" for which the extractor
returns a different identifier — an earlier labelled occurrence wins, so the
result is NOT "1234567" "regardless of surrounding text". -/
theorem c6_counterexample :
    containsSub "NF 1234567".toList "NF: 99999 NF 1234567".toList = true ∧
    find_nf_number_in_string "NF: 99999 NF 1234567".toList =
      some "99999".toList ∧
    find_nf_number_in_string "NF: 99999 NF 1234567".toList ≠
      some "1234567".toList := by decide

/-- C6 (amended): for every text of the form `pre ++ "NF 1234567" ++ post`
where `pre` contains no digit (in particular no earlier identifier) and
`post` does not start with a digit, the description-variant extractor
returns "1234567"; surrounding non-digit text, and digit runs strictly inside
`post`, cannot change this. -/
theorem c6_nf_label_extracted (pre post : List Char)
    (hpre : ∀ c ∈ pre, isDigitC c = false)
    (hpost : ∀ x, post.head? = some x → isDigitC x = false) :
    find_nf_number_in_string (pre ++ ("NF 1234567".toList ++ post)) =
      some "1234567".toList := by
  have hocc : matchLabel nfToks ("NF 1234567".toList ++ post) =
      some "1234567".toList := by
    have hshape : "NF 1234567".toList ++ post =
        "NF".toList ++ ([] ++ ([' '] ++ ("1234567".toList ++ post))) := rfl
    rw [hshape]
    exact matchLabel_lit_at "nf".toList (by decide) (by decide) (Or.inl rfl)
      (by decide) (by decide) (by decide) (by decide) hpost
  have hfirst : firstMatch (matchLabel nfToks)
      (pre ++ ("NF 1234567".toList ++ post)) = some "1234567".toList := by
    apply firstMatch_found pre _ hocc
    intro u hu hne
    have hund : ∀ c ∈ u ++ "NF ".toList, isDigitC c = false := by
      intro c hc
      rcases List.mem_append.mp hc with hc1 | hc2
      · exact hpre c (hu.subset hc1)
      · have hcc : c = 'N' ∨ c = 'F' ∨ c = ' ' := by simpa using hc2
        rcases hcc with rfl | rfl | rfl <;> decide
    have hre : u ++ ("NF 1234567".toList ++ post) =
        (u ++ "NF ".toList) ++ ("1234567".toList ++ post) := by
      have h0 : "NF 1234567".toList = "NF ".toList ++ "1234567".toList := rfl
      rw [h0, List.append_assoc, List.append_assoc]
    rw [hre]
    exact matchLabel_nodigit goodToks_nf hund (by decide) (by decide) (by decide) hpost
  unfold find_nf_number_in_string
  rw [hfirst]
  rfl

theorem c6_witness :
    find_nf_number_in_string ("x ".toList ++ ("NF 1234567".toList ++ " y9888888".toList)) =
      some "1234567".toList :=
  c6_nf_label_extracted "x ".toList " y9888888".toList (by decide) (by decide)

/-- C7 counterexample: a filename containing the digit run "00123456"
(5–9 digits after stripping its leading zeros) for which the extractor does
NOT return the stripped run "123456": an earlier, longer digit run matches
first and yields "123456789". -/
theorem c7_counterexample :
    containsSub "00123456".toList "1234567890_00123456.pdf".toList = true ∧
    find_nf_number_in_filename "1234567890_00123456.pdf".toList =
      some "123456789".toList ∧
    find_nf_number_in_filename "1234567890_00123456.pdf".toList ≠
      some "123456".toList := by decide

/-- C7 (amended): when the FIRST digit run of the filename is `z ++ r` with
`z` leading zeros and `r` a 5–9 digit run not starting with `0` (nothing
before it is a digit, and it is not followed by a digit), the filename
variant returns `r`, i.e. the run with its leading zeros stripped; on
"00123456_invoice.pdf" this yields "123456". -/
theorem c7_filename_strips_zeros (pre z r post : List Char)
    (hpre : ∀ c ∈ pre, isDigitC c = false)
    (hz : ∀ c ∈ z, c = '0')
    (hr : ∀ c ∈ r, isDigitC c = true)
    (hrh : ∀ x, r.head? = some x → x ≠ '0')
    (h5 : 5 ≤ r.length) (h9 : r.length ≤ 9)
    (hpost : ∀ x, post.head? = some x → isDigitC x = false) :
    find_nf_number_in_filename (pre ++ (z ++ (r ++ post))) = some r := by
  have hocc : matchZeroPad (z ++ (r ++ post)) = some r :=
    matchZeroPad_at hz hr hrh h5 h9 hpost
  have hfirst : firstMatch matchZeroPad (pre ++ (z ++ (r ++ post))) = some r := by
    apply firstMatch_found pre _ hocc
    intro u hu hne
    obtain ⟨y, ys, rfl⟩ := List.exists_cons_of_ne_nil hne
    left
    have hy : isDigitC y = false := hpre y (hu.subset (List.mem_cons_self _ _))
    rw [List.cons_append]
    exact matchZeroPad_nodigit_head hy
  unfold find_nf_number_in_filename
  rw [hfirst]
  rfl

theorem c7_witness :
    find_nf_number_in_filename
        ([] ++ ("00".toList ++ ("123456".toList ++ "_invoice.pdf".toList))) =
      some "123456".toList :=
  c7_filename_strips_zeros [] "00".toList "123456".toList "_invoice.pdf".toList
    (by decide) (by decide) (by decide) (by decide) (by decide) (by decide) (by decide)

/-- A label occurrence as described by the spec: one of the tokens "NF",
"NFe", "DANFE", "Nota Fiscal" (case-insensitive, internal spacing allowed for
"Nota Fiscal"), followed by an optional colon and optional whitespace. -/
def IsLabelOcc (lm : List Char) : Prop :=
  (∃ l c s, lm = l ++ c ++ s ∧ l.map lowerChar = "nf".toList ∧
    (c = [] ∨ c = [':']) ∧ (∀ x ∈ s, isPySpace x = true)) ∨
  (∃ l c s, lm = l ++ c ++ s ∧ l.map lowerChar = "nfe".toList ∧
    (c = [] ∨ c = [':']) ∧ (∀ x ∈ s, isPySpace x = true)) ∨
  (∃ l c s, lm = l ++ c ++ s ∧ l.map lowerChar = "danfe".toList ∧
    (c = [] ∨ c = [':']) ∧ (∀ x ∈ s, isPySpace x = true)) ∨
  (∃ l1 s1 l2 s2 c s3, lm = l1 ++ s1 ++ l2 ++ s2 ++ c ++ s3 ∧
    l1.map lowerChar = "nota".toList ∧ (∀ x ∈ s1, isPySpace x = true) ∧
    l2.map lowerChar = "fiscal".toList ∧ (∀ x ∈ s2, isPySpace x = true) ∧
    (c = [] ∨ c = [':']) ∧ (∀ x ∈ s3, isPySpace x = true))

/-- C5: whenever the text contains a label occurrence immediately followed by
a 5–9 digit run, one of the four label patterns matches, so the extractor's
answer is produced by the label patterns (the bare digit-run fallbacks are
never consulted); in particular "DANFE: 12345" yields "12345" (through the
`NFe:?` pattern, which fires inside "DANFE:" — the `DANFE` pattern itself has
no optional colon). -/
theorem c5_label_digits_captured (pre lm d post : List Char)
    (hocc : IsLabelOcc lm)
    (hd : ∀ x ∈ d, isDigitC x = true)
    (h5 : 5 ≤ d.length) (h9 : d.length ≤ 9)
    (hpost : ∀ x, post.head? = some x → isDigitC x = false) :
    (labelOnlyMatches (pre ++ (lm ++ (d ++ post)))).isSome = true ∧
    find_nf_number_in_string (pre ++ (lm ++ (d ++ post))) =
      labelOnlyMatches (pre ++ (lm ++ (d ++ post))) ∧
    find_nf_number_in_string "DANFE: 12345".toList = some "12345".toList := by
  have hsome : (labelOnlyMatches (pre ++ (lm ++ (d ++ post)))).isSome = true := by
    rcases hocc with ⟨l, c, s, hlm, hmap, hcol, hs⟩ | ⟨l, c, s, hlm, hmap, hcol, hs⟩ |
      ⟨l, c, s, hlm, hmap, hcol, hs⟩ |
      ⟨l1, s1, l2, s2, c, s3, hlm, hm1, hs1, hm2, hs2, hcol, hs3⟩
    · subst hlm
      have hmm : matchLabel nfToks (l ++ (c ++ (s ++ (d ++ post)))) = some d :=
        matchLabel_lit_at "nf".toList (by decide) hmap hcol hs hd h5 h9 hpost
      have hfm : (firstMatch (matchLabel nfToks)
          (pre ++ (((l ++ c) ++ s) ++ (d ++ post)))).isSome = true := by
        have hre : ((l ++ c) ++ s) ++ (d ++ post) =
            l ++ (c ++ (s ++ (d ++ post))) := by simp [List.append_assoc]
        rw [hre]
        exact firstMatch_isSome_append pre (by rw [hmm]; rfl)
      exact oalt_isSome_left _ hfm
    · subst hlm
      have hmm : matchLabel nfeToks (l ++ (c ++ (s ++ (d ++ post)))) = some d :=
        matchLabel_lit_at "nfe".toList (by decide) hmap hcol hs hd h5 h9 hpost
      have hfm : (firstMatch (matchLabel nfeToks)
          (pre ++ (((l ++ c) ++ s) ++ (d ++ post)))).isSome = true := by
        have hre : ((l ++ c) ++ s) ++ (d ++ post) =
            l ++ (c ++ (s ++ (d ++ post))) := by simp [List.append_assoc]
        rw [hre]
        exact firstMatch_isSome_append pre (by rw [hmm]; rfl)
      exact oalt_isSome_right _ (oalt_isSome_left _ hfm)
    · subst hlm
      have hmap2 : (l.drop 2).map lowerChar = "nfe".toList := by
        rw [List.map_drop, hmap]
        rfl
      have hmm : matchLabel nfeToks (l.drop 2 ++ (c ++ (s ++ (d ++ post)))) = some d :=
        matchLabel_lit_at "nfe".toList (by decide) hmap2 hcol hs hd h5 h9 hpost
      have hfm : (firstMatch (matchLabel nfeToks)
          (pre ++ (((l ++ c) ++ s) ++ (d ++ post)))).isSome = true := by
        have hre : (pre ++ l.take 2) ++ (l.drop 2 ++ (c ++ (s ++ (d ++ post)))) =
            pre ++ (((l ++ c) ++ s) ++ (d ++ post)) := by
          rw [List.append_assoc pre (l.take 2),
            ← List.append_assoc (l.take 2) (l.drop 2), List.take_append_drop]
          simp [List.append_assoc]
        rw [← hre]
        exact firstMatch_isSome_append _ (by rw [hmm]; rfl)
      exact oalt_isSome_right _ (oalt_isSome_left _ hfm)
    · subst hlm
      have hmm : matchLabel notaFiscalToks
          (l1 ++ (s1 ++ (l2 ++ (s2 ++ (c ++ (s3 ++ (d ++ post))))))) = some d :=
        matchLabel_nota_at hm1 hs1 hm2 hs2 hcol hs3 hd h5 h9 hpost
      have hfm : (firstMatch (matchLabel notaFiscalToks)
          (pre ++ ((((((l1 ++ s1) ++ l2) ++ s2) ++ c) ++ s3) ++ (d ++ post)))).isSome
            = true := by
        have hre : (((((l1 ++ s1) ++ l2) ++ s2) ++ c) ++ s3) ++ (d ++ post) =
            l1 ++ (s1 ++ (l2 ++ (s2 ++ (c ++ (s3 ++ (d ++ post)))))) := by
          simp [List.append_assoc]
        rw [hre]
        exact firstMatch_isSome_append pre (by rw [hmm]; rfl)
      exact oalt_isSome_right _ (oalt_isSome_right _ (oalt_isSome_right _ hfm))
  refine ⟨hsome, ?_, by decide⟩
  obtain ⟨r, hr⟩ := Option.isSome_iff_exists.mp hsome
  rw [find_eq_oalt_labelOnly, hr]
  rfl

theorem c5_witness :
    (labelOnlyMatches ("x".toList ++ ("NF: ".toList ++ ("12345".toList ++ [])))).isSome
        = true ∧
    find_nf_number_in_string ("x".toList ++ ("NF: ".toList ++ ("12345".toList ++ []))) =
      labelOnlyMatches ("x".toList ++ ("NF: ".toList ++ ("12345".toList ++ []))) ∧
    find_nf_number_in_string "DANFE: 12345".toList = some "12345".toList :=
  c5_label_digits_captured "x".toList "NF: ".toList "12345".toList []
    (Or.inl ⟨"NF".toList, [':'], [' '], by decide, by decide, Or.inr rfl, by decide⟩)
    (by decide) (by decide) (by decide) (by decide)

/-- C8: patterns are tried in the fixed priority order and the first capture
of the first matching pattern wins: empty text yields nothing; whenever a
label pattern matches anywhere it pre-empts the bare digit-run fallbacks
(even a bare qualifying run occurring earlier in the string); and the
extractor returns nothing exactly when none of the six patterns matches at
any position. -/
theorem c8_priority_order (t : List Char) :
    find_nf_number_in_string [] = none ∧
    (∀ c, labelOnlyMatches t = some c → find_nf_number_in_string t = some c) ∧
    (find_nf_number_in_string t = none ↔
      ∀ u, u <:+ t →
        matchLabel nfToks u = none ∧ matchLabel nfeToks u = none ∧
        matchLabel danfeToks u = none ∧ matchLabel notaFiscalToks u = none ∧
        capDigits 9 9 u = none ∧ capDigits 6 8 u = none) := by
  refine ⟨by decide, ?_, ?_⟩
  · intro c hc
    rw [find_eq_oalt_labelOnly, hc]
    rfl
  · rw [find_eq_oalt_labelOnly]
    constructor
    · intro h u hu
      rcases (oalt_eq_none_iff _ _).mp h with ⟨hL, hB⟩
      rcases (oalt_eq_none_iff _ _).mp hB with ⟨h9n, h68⟩
      unfold labelOnlyMatches at hL
      rcases (oalt_eq_none_iff _ _).mp hL with ⟨h1, hL2⟩
      rcases (oalt_eq_none_iff _ _).mp hL2 with ⟨h2, hL3⟩
      rcases (oalt_eq_none_iff _ _).mp hL3 with ⟨h3, h4⟩
      exact ⟨(firstMatch_eq_none_iff t).mp h1 u hu,
        (firstMatch_eq_none_iff t).mp h2 u hu,
        (firstMatch_eq_none_iff t).mp h3 u hu,
        (firstMatch_eq_none_iff t).mp h4 u hu,
        (firstMatch_eq_none_iff t).mp h9n u hu,
        (firstMatch_eq_none_iff t).mp h68 u hu⟩
    · intro h
      refine (oalt_eq_none_iff _ _).mpr ⟨?_, (oalt_eq_none_iff _ _).mpr ⟨?_, ?_⟩⟩
      · unfold labelOnlyMatches
        refine (oalt_eq_none_iff _ _).mpr ⟨?_, (oalt_eq_none_iff _ _).mpr
          ⟨?_, (oalt_eq_none_iff _ _).mpr ⟨?_, ?_⟩⟩⟩
        · exact (firstMatch_eq_none_iff t).mpr (fun u hu => (h u hu).1)
        · exact (firstMatch_eq_none_iff t).mpr (fun u hu => (h u hu).2.1)
        · exact (firstMatch_eq_none_iff t).mpr (fun u hu => (h u hu).2.2.1)
        · exact (firstMatch_eq_none_iff t).mpr (fun u hu => (h u hu).2.2.2.1)
      · exact (firstMatch_eq_none_iff t).mpr (fun u hu => (h u hu).2.2.2.2.1)
      · exact (firstMatch_eq_none_iff t).mpr (fun u hu => (h u hu).2.2.2.2.2)

theorem c8_witness :
    find_nf_number_in_string [] = none ∧
    find_nf_number_in_string "777888 NF 123456".toList = some "123456".toList :=
  ⟨(c8_priority_order []).1,
   (c8_priority_order "777888 NF 123456".toList).2.1 "123456".toList (by decide)⟩
